import Mathlib

/-
Verification of the SubstackGPT ingestion-to-embedding pipeline.

Strings are modelled as `List Char` (JS strings are sequences of UTF-16
code units; none of the verified properties depend on surrogate pairs).
The GPT token counter `encode(s).length` from the third-party
`gpt-3-encoder` package is modelled as an arbitrary parameter
`tok : Str → Nat`; properties that depend on specific token measures take
explicit hypotheses on `tok` (e.g. additivity), and concrete counterexample
measures (character count and scaled character count) are supplied where
needed.
-/

namespace SubstackGPT

abbrev Str := List Char

/-- JavaScript whitespace for `String.prototype.trim` (restricted to the
ASCII whitespace characters; the extra Unicode space characters do not
occur in any statement below). -/
def isJsWS (c : Char) : Bool :=
  c == ' ' || c == '\t' || c == '\n' || c == '\r' || c == '\x0b' || c == '\x0c'

/-- Model of `s.trim()`: drop whitespace from both ends. -/
def jsTrim (s : Str) : Str :=
  ((s.dropWhile isJsWS).reverse.dropWhile isJsWS).reverse

/-- Prepend a character to the first group of a split result. -/
def consHead (c : Char) : List Str → List Str
  | [] => [[c]]
  | g :: gs => (c :: g) :: gs

/-- Model of JavaScript `content.split(". ")`: leftmost-first splitting on
the two-character delimiter.  Consecutive delimiters and a trailing
delimiter produce empty segments, exactly as in JS. -/
def splitDotSpace : Str → List Str
  | [] => [[]]
  | '.' :: ' ' :: rest => [] :: splitDotSpace rest
  | c :: rest => consHead c (splitDotSpace rest)

/-- The regex test `/[a-z0-9]/i` applied to a single character. -/
def isAlnumAscii (c : Char) : Bool :=
  decide (('a' ≤ c ∧ c ≤ 'z') ∨ ('A' ≤ c ∧ c ≤ 'Z') ∨ ('0' ≤ c ∧ c ≤ '9'))

/-- `sentence[sentence.length - 1].match(/[a-z0-9]/i)` for a non-empty
sentence (`false` for the empty sentence, where the real code throws). -/
def endsAlnum (s : Str) : Bool :=
  match s.getLast? with
  | some c => isAlnumAscii c
  | none => false

/-- The separator the chunker appends after a sentence: `". "` when the
sentence ends in an ASCII alphanumeric character, `" "` otherwise. -/
def sepFor (s : Str) : Str :=
  match s.getLast? with
  | some c => if isAlnumAscii c then ['.', ' '] else [' ']
  | none => []

/-- Re-assemble a list of sentences the way the chunker's buffer does:
every sentence is followed by its separator. -/
def rebuild : List Str → Str
  | [] => []
  | s :: ss => s ++ (sepFor s ++ rebuild ss)

/-- `const CHUNK_SIZE = 200` (src/scripts/substack_scraper.ts line 38). -/
def CHUNK_SIZE : Nat := 200

/-- The `PostChunk` record of src/scripts/substack_scraper.ts. -/
structure PostChunk where
  essay_title : Str
  essay_url : Str
  essay_date : Str
  content : Str
  content_length : Nat
  content_tokens : Nat
  embedding : List Int
deriving DecidableEq

/-- `createChunk` (src/scripts/substack_scraper.ts lines 179-189),
parameterised by the token counter. -/
def createChunk (tok : Str → Nat) (content title url date : Str) : PostChunk :=
  { essay_title := title
    essay_url := url
    essay_date := date
    content := content
    content_length := content.length
    content_tokens := tok content
    embedding := [] }

/-- The sentence-accumulation loop of `createChunks`
(src/scripts/substack_scraper.ts lines 152-171).  The state is the list of
remaining sentences, the running buffer `chunkText`, and the chunks pushed
so far.  Reading the last character of an empty sentence throws a
`TypeError` in the source (`undefined.match`), modelled by `none`; the
exception discards the chunks accumulated so far. -/
def chunkLoop (tok : Str → Nat) (title url date : Str) :
    List Str → Str → List PostChunk → Option (List PostChunk)
  | [], chunkText, chunks =>
    if 0 < (jsTrim chunkText).length then
      some (chunks ++ [createChunk tok (jsTrim chunkText) title url date])
    else
      some chunks
  | sentence :: rest, chunkText, chunks =>
    let chunksNext :=
      if CHUNK_SIZE < tok chunkText + tok sentence then
        chunks ++ [createChunk tok (jsTrim chunkText) title url date]
      else chunks
    let bufNext : Str :=
      if CHUNK_SIZE < tok chunkText + tok sentence then [] else chunkText
    match sentence.getLast? with
    | none => none
    | some c =>
      chunkLoop tok title url date rest
        (bufNext ++ sentence ++ (if isAlnumAscii c then ['.', ' '] else [' ']))
        chunksNext

/-- `createChunks` (src/scripts/substack_scraper.ts lines 144-177),
parameterised by the token counter `tok` standing for
`(s) => encode(s).length`. -/
def createChunks (tok : Str → Nat) (content title url date : Str) :
    Option (List PostChunk) :=
  if CHUNK_SIZE < tok content then
    chunkLoop tok title url date (splitDotSpace content) [] []
  else
    some [createChunk tok (jsTrim content) title url date]

/-- Token measure: one token per character. -/
def tokLen (s : Str) : Nat := s.length

/-- Token measure: ten tokens per character. -/
def tok10 (s : Str) : Nat := 10 * s.length

/-- Token measure: one hundred tokens per character. -/
def tok100 (s : Str) : Nat := 100 * s.length

/-- A token measure is additive when the tokens of a concatenation are the
sum of the tokens of the parts. -/
def TokAdditive (tok : Str → Nat) : Prop :=
  ∀ a b : Str, tok (a ++ b) = tok a + tok b

-- Sanity checks of the split model against JS `"…".split(". ")`.
example : splitDotSpace ['a', '.', ' ', 'b'] = [['a'], ['b']] := by decide
example : splitDotSpace ['a', '.', ' '] = [['a'], []] := by decide
example : splitDotSpace ['a', '.', '.', ' ', 'b'] = [['a', '.'], ['b']] := by decide
example : splitDotSpace [] = [[]] := by decide
example : jsTrim [' ', 'a', '.', ' '] = ['a', '.'] := by decide

/-- An over-budget text ending in the delimiter `". "`: its split contains
an empty final segment, so the chunker loop reads the last character of an
empty string. -/
def c10bad : Str := List.replicate 201 'a' ++ ['.', ' ']

/-- Input refuting C1 under the additive measure `tok10`: three sentences
of 100, 80 and 10 tokens.  The first two are greedily accumulated (the
pre-separator check sees 120 + 80 = 200 ≤ 200) but the appended separators
push the first emitted chunk to 210 tokens. -/
def cexC1 : Str :=
  List.replicate 10 'a' ++ ['.', ' '] ++ List.replicate 8 'b' ++ ['.', ' '] ++ ['c']

/-- Bool-valued form of "this sentence is within the token budget". -/
def smallTok10 (s : Str) : Bool := decide (tok10 s ≤ CHUNK_SIZE)

/-- Input refuting C2 under `tok100`: the text "aa. bb" (600 tokens).  Both
sentences end alphanumerically, so the period-reattachment rule is the
identity here, yet the concatenated chunk contents differ from the text. -/
def cexC2 : Str := ['a', 'a', '.', ' ', 'b', 'b']

/-- Concatenation of the contents of a chunk list, in output order. -/
def concatContents (l : List PostChunk) : Str :=
  (l.map PostChunk.content).flatten

example :
    (createChunks tok10 cexC1 [] [] []).map (List.map PostChunk.content_tokens)
      = some [210, 20] := by decide

example :
    (createChunks tok100 cexC2 [] [] []).map (List.map PostChunk.content)
      = some [['a', 'a', '.'], ['b', 'b', '.']] := by decide

/-- C3.  For every token measure and every input whose token count is at
most the budget (200), `createChunks` produces exactly one chunk whose
content is the whitespace-trimmed input text. -/
theorem C3_single_chunk (tok : Str → Nat) (content title url date : Str)
    (h : tok content ≤ CHUNK_SIZE) :
    createChunks tok content title url date
      = some [createChunk tok (jsTrim content) title url date] := by
  unfold createChunks
  rw [if_neg (Nat.not_lt.mpr h)]

/-- Witness for C3 at the concrete input "hi" with the measure `tok10`. -/
theorem C3_witness :
    tok10 ['h', 'i'] ≤ CHUNK_SIZE ∧
      createChunks tok10 ['h', 'i'] [] [] []
        = some [createChunk tok10 (jsTrim ['h', 'i']) [] [] []] :=
  ⟨by decide, C3_single_chunk tok10 ['h', 'i'] [] [] [] (by decide)⟩

/-- C9.  Chunking is deterministic and idempotent: `createChunks` is a pure
function of the token measure, text, title, URL and date — the faithful
translation of the source reads no ambient mutable state — so two
invocations on the same inputs yield identical chunk sequences (same
contents, lengths, token counts, and order). -/
theorem C9_deterministic (tok : Str → Nat) (content title url date : Str) :
    createChunks tok content title url date
      = createChunks tok content title url date := rfl

set_option maxRecDepth 4000 in
/-- C10.  The totality claim is false: a text whose token count exceeds the
budget and which ends in the delimiter `". "` splits into segments whose
last segment is empty, and the loop's read of `sentence[sentence.length-1]`
is out of bounds (`undefined.match` throws a `TypeError`, modelled as
`none`).  Here `c10bad` is 201 copies of 'a' followed by `". "`
(203 tokens under the per-character measure `tokLen`). -/
theorem C10_throws :
    [] ∈ splitDotSpace c10bad ∧ CHUNK_SIZE < tokLen c10bad ∧
      createChunks tokLen c10bad [] [] [] = none := by decide

/-- C1 counterexample.  Under the additive token measure `tok10` the input
`cexC1` has 230 tokens (over budget), every split sentence is within
budget (so no "single oversized sentence" exception can apply), yet the
first produced chunk has 210 tokens, exceeding the 200-token budget:
the overflow check compares token counts before the `". "` separator is
appended, and the appended separators accumulate. -/
theorem C1_counterexample :
    CHUNK_SIZE < tok10 cexC1 ∧
      (splitDotSpace cexC1).all smallTok10 = true ∧
      (createChunks tok10 cexC1 [] [] []).map (List.map PostChunk.content_tokens)
        = some [210, 20] ∧
      ¬ 210 ≤ CHUNK_SIZE := by decide

/-- C2 counterexample.  For the input "aa. bb" under `tok100` both
sentences end alphanumerically, so the specified period-reattachment rule
re-appends every removed period and a lossless reconstruction would be the
original text itself; but the concatenated chunk contents are "aa.bb." —
the inter-chunk whitespace is trimmed away and a spurious period is
appended to the final sentence — and splitting the concatenation no longer
recovers the original sentence sequence. -/
theorem C2_counterexample :
    CHUNK_SIZE < tok100 cexC2 ∧
      (splitDotSpace cexC2).all endsAlnum = true ∧
      (createChunks tok100 cexC2 [] [] []).map (List.map PostChunk.content)
        = some [['a', 'a', '.'], ['b', 'b', '.']] ∧
      [['a', 'a', '.'], ['b', 'b', '.']].flatten ≠ cexC2 ∧
      splitDotSpace [['a', 'a', '.'], ['b', 'b', '.']].flatten ≠ splitDotSpace cexC2 := by
  decide

theorem TokAdditive.nil_eq {tok : Str → Nat} (h : TokAdditive tok) : tok [] = 0 := by
  have h0 := h [] []
  simp only [List.nil_append] at h0
  omega

theorem TokAdditive.reverse_eq {tok : Str → Nat} (h : TokAdditive tok) :
    ∀ l : Str, tok l.reverse = tok l := by
  intro l
  induction l with
  | nil => rfl
  | cons c l ih =>
    have h1 := h l.reverse [c]
    have h2 := h [c] l
    simp only [List.singleton_append] at h2
    simp only [List.reverse_cons]
    omega

theorem TokAdditive.dropWhile_le {tok : Str → Nat} (h : TokAdditive tok)
    (p : Char → Bool) (l : Str) : tok (l.dropWhile p) ≤ tok l := by
  conv_rhs => rw [← List.takeWhile_append_dropWhile (p := p) (l := l)]
  rw [h]
  omega

theorem TokAdditive.jsTrim_le {tok : Str → Nat} (h : TokAdditive tok) (s : Str) :
    tok (jsTrim s) ≤ tok s := by
  unfold jsTrim
  calc tok ((s.dropWhile isJsWS).reverse.dropWhile isJsWS).reverse
      = tok ((s.dropWhile isJsWS).reverse.dropWhile isJsWS) := h.reverse_eq _
    _ ≤ tok (s.dropWhile isJsWS).reverse := h.dropWhile_le _ _
    _ = tok (s.dropWhile isJsWS) := h.reverse_eq _
    _ ≤ tok s := h.dropWhile_le _ _

theorem TokAdditive.sep_le {tok : Str → Nat} (h : TokAdditive tok) (c : Char) :
    tok (if isAlnumAscii c then ['.', ' '] else [' ']) ≤ tok ['.', ' '] := by
  have h1 := h ['.'] [' ']
  simp only [List.singleton_append] at h1
  split <;> omega

/-- The buffer-and-chunks invariant of the accumulation loop: if every
remaining sentence is within budget, the buffer is within budget plus one
separator, and every already-pushed chunk is within budget plus one
separator, then every chunk of a successful run is within budget plus one
separator. -/
theorem chunkLoop_tokens_le (tok : Str → Nat) (hAdd : TokAdditive tok)
    (title url date : Str) :
    ∀ (ss : List Str) (buf : Str) (chunks res : List PostChunk),
      (∀ s ∈ ss, tok s ≤ CHUNK_SIZE) →
      tok buf ≤ CHUNK_SIZE + tok ['.', ' '] →
      (∀ ch ∈ chunks, ch.content_tokens ≤ CHUNK_SIZE + tok ['.', ' ']) →
      chunkLoop tok title url date ss buf chunks = some res →
      ∀ ch ∈ res, ch.content_tokens ≤ CHUNK_SIZE + tok ['.', ' '] := by
  intro ss
  induction ss with
  | nil =>
    intro buf chunks res _ hbuf hchunks hres ch hch
    simp only [chunkLoop] at hres
    split at hres
    · cases hres
      rcases List.mem_append.mp hch with hm | hm
      · exact hchunks ch hm
      · rcases List.mem_singleton.mp hm with rfl
        exact le_trans (hAdd.jsTrim_le buf) hbuf
    · cases hres
      exact hchunks ch hch
  | cons s ss ih =>
    intro buf chunks res hss hbuf hchunks hres ch hch
    simp only [chunkLoop] at hres
    cases hg : s.getLast? with
    | none => rw [hg] at hres; cases hres
    | some c =>
      rw [hg] at hres
      have hs : tok s ≤ CHUNK_SIZE := hss s (List.mem_cons_self s ss)
      have hss' : ∀ t ∈ ss, tok t ≤ CHUNK_SIZE := fun t ht => hss t (List.mem_cons_of_mem s ht)
      have hsep : tok (if isAlnumAscii c then ['.', ' '] else [' ']) ≤ tok ['.', ' '] :=
        hAdd.sep_le c
      by_cases hF : CHUNK_SIZE < tok buf + tok s
      · rw [if_pos hF, if_pos hF] at hres
        refine ih ([] ++ s ++ (if isAlnumAscii c then ['.', ' '] else [' ']))
          (chunks ++ [createChunk tok (jsTrim buf) title url date]) res hss' ?_ ?_ hres ch hch
        · rw [hAdd, hAdd, hAdd.nil_eq]
          omega
        · intro ch' hch'
          rcases List.mem_append.mp hch' with hm | hm
          · exact hchunks ch' hm
          · rcases List.mem_singleton.mp hm with rfl
            exact le_trans (hAdd.jsTrim_le buf) hbuf
      · rw [if_neg hF, if_neg hF] at hres
        refine ih (buf ++ s ++ (if isAlnumAscii c then ['.', ' '] else [' ']))
          chunks res hss' ?_ hchunks hres ch hch
        rw [hAdd, hAdd]
        omega

/-- C1 amended.  For every additive token measure: if no single sentence
of the split exceeds the budget, then every chunk produced by
`createChunks` has token count at most the budget plus the token count of
the appended separator `". "` — the pre-separator overflow check lets each
emitted chunk exceed the budget by exactly the final separator's tokens,
so the plain "≤ budget" bound of the original claim fails (see
`C1_counterexample`) but this relaxed bound holds. -/
theorem C1_amended (tok : Str → Nat) (hAdd : TokAdditive tok)
    (content title url date : Str) (res : List PostChunk)
    (hres : createChunks tok content title url date = some res)
    (hsmall : ∀ s ∈ splitDotSpace content, tok s ≤ CHUNK_SIZE) :
    ∀ ch ∈ res, ch.content_tokens ≤ CHUNK_SIZE + tok ['.', ' '] := by
  unfold createChunks at hres
  split at hres
  · refine chunkLoop_tokens_le tok hAdd title url date (splitDotSpace content) [] [] res
      hsmall ?_ ?_ hres
    · rw [hAdd.nil_eq]; omega
    · intro ch hch; cases hch
  · cases hres
    intro ch hch
    rcases List.mem_singleton.mp hch with rfl
    have hle : tok content ≤ CHUNK_SIZE := Nat.not_lt.mp (by assumption)
    exact le_trans (le_trans (hAdd.jsTrim_le content) hle) (Nat.le_add_right _ _)

theorem tok10_additive : TokAdditive tok10 := by
  intro a b
  simp [tok10, List.length_append, Nat.mul_add]

/-- The first chunk `createChunks` emits on `cexC1` under `tok10`. -/
def cexC1chunkA : PostChunk :=
  createChunk tok10
    (List.replicate 10 'a' ++ ['.', ' '] ++ List.replicate 8 'b' ++ ['.']) [] [] []

/-- The second chunk `createChunks` emits on `cexC1` under `tok10`. -/
def cexC1chunkB : PostChunk := createChunk tok10 ['c', '.'] [] [] []

/-- Witness for C1 amended: the over-budget first chunk of `cexC1`
(210 tokens) is within the amended bound 200 + tok10 ". " = 220. -/
theorem C1_amended_witness :
    cexC1chunkA.content_tokens ≤ CHUNK_SIZE + tok10 ['.', ' '] :=
  C1_amended tok10 tok10_additive cexC1 [] [] [] [cexC1chunkA, cexC1chunkB]
    (by decide) (by decide) cexC1chunkA (by decide)

/-- The chunk the loop emits for a group of consecutive sentences: the
whitespace-trim of the group's sentences each followed by its separator. -/
def mkChunkOf (tok : Str → Nat) (title url date : Str) (g : List Str) : PostChunk :=
  createChunk tok (jsTrim (rebuild g)) title url date

/-- The trailing flush of the loop: the final group's chunk is emitted only
when its trimmed text is non-empty. -/
def finalChunk (tok : Str → Nat) (title url date : Str) (g : List Str) :
    List PostChunk :=
  if 0 < (jsTrim (rebuild g)).length then [mkChunkOf tok title url date g] else []

/-- The grouping the accumulation loop performs on the sentence list: a
new group is opened exactly when the pre-separator overflow check fires.
Returns the closed groups and the final (pending) group. -/
def groupLoop (tok : Str → Nat) : List Str → List Str → List (List Str) × List Str
  | [], gcur => ([], gcur)
  | s :: ss, gcur =>
    if CHUNK_SIZE < tok (rebuild gcur) + tok s then
      let p := groupLoop tok ss [s]
      (gcur :: p.1, p.2)
    else
      groupLoop tok ss (gcur ++ [s])

theorem rebuild_snoc (g : List Str) (s : Str) :
    rebuild (g ++ [s]) = rebuild g ++ (s ++ sepFor s) := by
  induction g with
  | nil => simp [rebuild]
  | cons a g ih => simp [rebuild, ih]

/-- The groups produced by `groupLoop` partition the input sentence list
in order. -/
theorem groupLoop_flatten (tok : Str → Nat) :
    ∀ (ss gcur : List Str),
      ((groupLoop tok ss gcur).1).flatten ++ (groupLoop tok ss gcur).2 = gcur ++ ss := by
  intro ss
  induction ss with
  | nil => intro gcur; simp [groupLoop]
  | cons s ss ih =>
    intro gcur
    simp only [groupLoop]
    split
    · simp only [List.flatten_cons, List.append_assoc]
      rw [ih [s]]
      simp
    · rw [ih (gcur ++ [s])]
      simp

/-- The accumulation loop emits exactly the chunks of the groups computed
by `groupLoop`, in order, plus the conditional trailing chunk. -/
theorem chunkLoop_eq_groups (tok : Str → Nat) (title url date : Str) :
    ∀ (ss gcur : List Str) (chunks res : List PostChunk),
      chunkLoop tok title url date ss (rebuild gcur) chunks = some res →
      res = chunks ++ ((groupLoop tok ss gcur).1).map (mkChunkOf tok title url date)
          ++ finalChunk tok title url date (groupLoop tok ss gcur).2 := by
  intro ss
  induction ss with
  | nil =>
    intro gcur chunks res hres
    simp only [chunkLoop] at hres
    simp only [groupLoop, finalChunk, List.map_nil]
    split at hres <;> cases hres
    · rw [if_pos (by assumption)]
      simp [mkChunkOf]
    · rw [if_neg (by assumption)]
      simp
  | cons s ss ih =>
    intro gcur chunks res hres
    simp only [chunkLoop] at hres
    cases hg : s.getLast? with
    | none => rw [hg] at hres; cases hres
    | some c =>
      rw [hg] at hres
      dsimp only at hres
      have hsep : (if isAlnumAscii c then ['.', ' '] else [' ']) = sepFor s := by
        simp [sepFor, hg]
      simp only [groupLoop]
      by_cases hF : CHUNK_SIZE < tok (rebuild gcur) + tok s
      · rw [if_pos hF, if_pos hF] at hres
        rw [if_pos hF]
        have hbuf : [] ++ s ++ (if isAlnumAscii c then ['.', ' '] else [' ']) = rebuild [s] := by
          rw [hsep]; simp [rebuild]
        rw [hbuf] at hres
        have := ih [s] (chunks ++ [createChunk tok (jsTrim (rebuild gcur)) title url date]) res hres
        rw [this]
        simp [mkChunkOf, List.append_assoc]
      · rw [if_neg hF, if_neg hF] at hres
        rw [if_neg hF]
        have hbuf : rebuild gcur ++ s ++ (if isAlnumAscii c then ['.', ' '] else [' '])
            = rebuild (gcur ++ [s]) := by
          rw [hsep, rebuild_snoc, List.append_assoc]
        rw [hbuf] at hres
        exact ih (gcur ++ [s]) chunks res hres

/-- C2 amended.  For an over-budget text, the produced chunks preserve
source order and are lossless at sentence granularity modulo the
separator rewriting and trimming the code performs: the split sentence
list is partitioned (by `groupLoop`) into consecutive groups, the i-th
chunk's content is the whitespace-trim of its group's sentences each
followed by `". "` (if the sentence ends alphanumerically) or `" "`
(otherwise), and a trailing group whose trim is empty is dropped.  The
original claim's stronger reading — that concatenating chunk contents
reconstructs the text modulo only period re-attachment — fails
(see `C2_counterexample`) because chunk-boundary whitespace is trimmed and
the final sentence also receives a separator. -/
theorem C2_amended (tok : Str → Nat) (content title url date : Str)
    (res : List PostChunk)
    (hres : createChunks tok content title url date = some res)
    (hbig : CHUNK_SIZE < tok content) :
    res = ((groupLoop tok (splitDotSpace content) []).1).map (mkChunkOf tok title url date)
        ++ finalChunk tok title url date (groupLoop tok (splitDotSpace content) []).2
    ∧ ((groupLoop tok (splitDotSpace content) []).1).flatten
        ++ (groupLoop tok (splitDotSpace content) []).2 = splitDotSpace content := by
  unfold createChunks at hres
  rw [if_pos hbig] at hres
  constructor
  · have := chunkLoop_eq_groups tok title url date (splitDotSpace content) [] [] res hres
    simpa using this
  · simpa using groupLoop_flatten tok (splitDotSpace content) []

/-- The first chunk `createChunks` emits on `cexC2` under `tok100`. -/
def cexC2chunkA : PostChunk := createChunk tok100 ['a', 'a', '.'] [] [] []

/-- The second chunk `createChunks` emits on `cexC2` under `tok100`. -/
def cexC2chunkB : PostChunk := createChunk tok100 ['b', 'b', '.'] [] [] []

/-- Witness for C2 amended at the concrete input "aa. bb" under `tok100`. -/
theorem C2_amended_witness :
    [cexC2chunkA, cexC2chunkB]
        = ((groupLoop tok100 (splitDotSpace cexC2) []).1).map (mkChunkOf tok100 [] [] [])
          ++ finalChunk tok100 [] [] [] (groupLoop tok100 (splitDotSpace cexC2) []).2
    ∧ ((groupLoop tok100 (splitDotSpace cexC2) []).1).flatten
        ++ (groupLoop tok100 (splitDotSpace cexC2) []).2 = splitDotSpace cexC2 :=
  C2_amended tok100 cexC2 [] [] [] [cexC2chunkA, cexC2chunkB] (by decide) (by decide)

/-
RateLimiter (variant 1, src/unnamed/part_006 lines 8-62) under the
deterministic JavaScript event-loop semantics: each `add` runs
`processNextRequest` synchronously up to its first `await`; `await
sleep(t)` registers a timer continuation; timers with equal deadlines fire
in registration order; resuming after the sleep proceeds directly to
`queue.shift()` with no re-check of `activeRequests` or of the pacing
condition.  Wrapped calls (`request.fn()`) take `fnDur` milliseconds.
-/

/-- `requestInterval = 500` (part_006 line 16). -/
def requestInterval : Nat := 500

/-- `maxConcurrent = 3` (part_006 line 17). -/
def maxConcurrent : Nat := 3

/-- Duration of each wrapped embedding call in the simulated scenario. -/
def fnDur : Nat := 10000

/-- Pending event-loop continuations: `wake` resumes a
`processNextRequest` after its pacing sleep (at the `queue.shift()`
line); `done` is the completion of an in-flight `request.fn()` (the
`finally` block). -/
inductive EvK
  | wake
  | done
deriving DecidableEq

/-- The limiter's shared state plus the event-loop bookkeeping.
`dispatches` records the clock value at each `lastRequestTime` update
(i.e. each dispatch start); `maxActive` records the peak of
`activeRequests`. -/
structure RLState where
  time : Nat
  queue : Nat
  active : Nat
  lastRequestTime : Nat
  events : List (Nat × EvK)
  dispatches : List Nat
  maxActive : Nat
deriving DecidableEq

/-- The code after the pacing sleep: `queue.shift(); if (!request) return;
activeRequests++; lastRequestTime = Date.now(); await request.fn()`. -/
def dispatchStep (s : RLState) : RLState :=
  if s.queue = 0 then s
  else
    { s with
      queue := s.queue - 1
      active := s.active + 1
      lastRequestTime := s.time
      events := s.events ++ [(s.time + fnDur, EvK.done)]
      dispatches := s.dispatches ++ [s.time]
      maxActive := max s.maxActive (s.active + 1) }

/-- `processNextRequest` (part_006 lines 26-61) up to its first
suspension: bail out if the queue is empty or the concurrency cap is hit;
compute `timeToWait` from the shared `lastRequestTime`; if positive,
suspend on the pacing sleep (registering a `wake` continuation), else
dispatch synchronously. -/
def processNextRequest (s : RLState) : RLState :=
  if s.queue = 0 ∨ maxConcurrent ≤ s.active then s
  else
    let timeToWait := requestInterval - (s.time - s.lastRequestTime)
    if 0 < timeToWait then
      { s with events := s.events ++ [(s.time + timeToWait, EvK.wake)] }
    else
      dispatchStep s

/-- `add` (part_006 lines 19-24): push onto the queue and invoke
`processNextRequest` synchronously. -/
def rlAdd (s : RLState) : RLState :=
  processNextRequest { s with queue := s.queue + 1 }

/-- Pick the pending event with the smallest deadline (first-registered
among equals), as the JS timer queue does. -/
def pickMin : List (Nat × EvK) → Option ((Nat × EvK) × List (Nat × EvK))
  | [] => none
  | e :: es =>
    match pickMin es with
    | none => some (e, [])
    | some (m, rest) => if e.1 ≤ m.1 then some (e, es) else some (m, e :: rest)

/-- Fire one continuation: a `wake` resumes at the dispatch point; a
`done` runs the `finally` block (`activeRequests--; processNextRequest()`)
followed by the trailing `if (activeRequests < maxConcurrent)
processNextRequest()`. -/
def fireEvent (s : RLState) (e : Nat × EvK) : RLState :=
  let s1 := { s with time := max s.time e.1 }
  match e.2 with
  | EvK.wake => dispatchStep s1
  | EvK.done =>
    let s2 := processNextRequest { s1 with active := s1.active - 1 }
    if s2.active < maxConcurrent then processNextRequest s2 else s2

/-- One event-loop step: fire the earliest pending continuation. -/
def rlLoopStep (s : RLState) : RLState :=
  match pickMin s.events with
  | none => s
  | some (e, rest) => fireEvent { s with events := rest } e

/-- Run the event loop for a bounded number of steps. -/
def rlRun : Nat → RLState → RLState
  | 0, s => s
  | n + 1, s => rlRun n (rlLoopStep s)

/-- A fresh limiter observed first at clock time 1000 (`lastRequestTime`
initialised to 0, as in the source). -/
def rlInit : RLState :=
  { time := 1000, queue := 0, active := 0, lastRequestTime := 0
    events := [], dispatches := [], maxActive := 0 }

/-- Five `add` calls in one tick, then the event loop runs to quiescence. -/
def rlScenario : RLState :=
  rlRun 12 (rlAdd (rlAdd (rlAdd (rlAdd (rlAdd rlInit)))))

/-- C4.  The rate-limiter claim fails on the code: with five `add` calls
issued in the same tick against a fresh limiter, `activeRequests` peaks at
5 (exceeding `maxConcurrent = 3`) and the dispatch start times are
1000, 1500, 1500, 1500, 1500 — four dispatches 0 ms apart, far below
`requestInterval = 500` — because the concurrency check and the pacing
computation both happen before the pacing sleep and are never re-checked
after waking, so all sleeping callers pass the pacing check together. -/
theorem C4_limiter_violation :
    rlScenario.maxActive = 5 ∧
      maxConcurrent < rlScenario.maxActive ∧
      rlScenario.dispatches = [1000, 1500, 1500, 1500, 1500] := by decide

/-
Model of the per-chunk embedding pipeline `generateEmbeddings`
(src/scripts/embed.ts lines 36-164).  The OpenAI embedding call for a
chunk is classified by the oracle `resp chunkId attempt` into the failure
taxonomy the code tests for (success / HTTP 429 rate-limited /
insufficient_quota / other); the Supabase insert outcome is the oracle
`insOk chunkId attempt`.  Chunks are identified by opaque natural-number
ids; essays are lists of chunk ids.  The run is summarised as the ordered
list of externally visible events (dispatched embedding calls and
persisted records) plus an `exited` flag modelling `process.exit(1)`.
-/

/-- Response classes of the embedding service, as classified by the code:
`ok` (success), `rate` (`error.response.status === 429`), `quota`
(`error.response.data.error.type === 'insufficient_quota'`), `other`
(anything else). -/
inductive Resp
  | ok
  | rate
  | quota
  | other
deriving DecidableEq

/-- Externally visible actions of the per-chunk pipeline: an embedding
dispatch for a chunk with its outcome, and a persisted record. -/
inductive EvE
  | disp (id : Nat) (r : Resp)
  | persist (id : Nat)
deriving DecidableEq

/-- The retry loop of embed.ts (lines 62-137) for one chunk:
`while (retries < maxRetries)` with `maxRetries = 8`.  `left` is the
number of attempts the while-condition still admits (`8 - retries`) and
`r` is the current value of `retries` (the attempt index).  On success the
record is inserted and the loop breaks; an insert error is thrown and
handled like any non-429, non-quota error; a 429 always sleeps and
retries; `insufficient_quota` calls `process.exit(1)` (second component
`true`); any other error retries unless the ceiling is reached. -/
def chunkTryE (resp : Nat → Nat → Resp) (insOk : Nat → Nat → Bool) (id : Nat) :
    Nat → Nat → List EvE × Bool
  | 0, _ => ([], false)
  | left + 1, r =>
    match resp id r with
    | Resp.ok =>
      if insOk id r then ([EvE.disp id Resp.ok, EvE.persist id], false)
      else if left = 0 then ([EvE.disp id Resp.ok], false)
      else
        let p := chunkTryE resp insOk id left (r + 1)
        (EvE.disp id Resp.ok :: p.1, p.2)
    | Resp.rate =>
      let p := chunkTryE resp insOk id left (r + 1)
      (EvE.disp id Resp.rate :: p.1, p.2)
    | Resp.quota => ([EvE.disp id Resp.quota], true)
    | Resp.other =>
      if left = 0 then ([EvE.disp id Resp.other], false)
      else
        let p := chunkTryE resp insOk id left (r + 1)
        (EvE.disp id Resp.other :: p.1, p.2)

/-- One chunk processed from `retries = 0` with ceiling 8. -/
def chunkRetryE (resp : Nat → Nat → Resp) (insOk : Nat → Nat → Bool) (id : Nat) :
    List EvE × Bool :=
  chunkTryE resp insOk id 8 0

/-- The inner chunk loop of embed.ts (lines 60-142): chunks in order;
`process.exit` aborts everything. -/
def runChunksE (resp : Nat → Nat → Resp) (insOk : Nat → Nat → Bool) :
    List Nat → List EvE × Bool
  | [] => ([], false)
  | id :: rest =>
    let p := chunkRetryE resp insOk id
    if p.2 then p
    else
      let q := runChunksE resp insOk rest
      (p.1 ++ q.1, q.2)

/-- The outer essay loop of embed.ts (lines 56-143). -/
def runEssaysE (resp : Nat → Nat → Resp) (insOk : Nat → Nat → Bool) :
    List (List Nat) → List EvE × Bool
  | [] => ([], false)
  | es :: rest =>
    let p := runChunksE resp insOk es
    if p.2 then p
    else
      let q := runEssaysE resp insOk rest
      (p.1 ++ q.1, q.2)

/-- Oracle: every insert succeeds. -/
def insOkT : Nat → Nat → Bool := fun _ _ => true

/-- Oracle: every embedding call succeeds. -/
def respOkE : Nat → Nat → Resp := fun _ _ => Resp.ok

/-- Oracle: two rate-limited failures, then success (for every chunk). -/
def respC6 : Nat → Nat → Resp := fun _ r => if r < 2 then Resp.rate else Resp.ok

/-- Oracle: chunk 0 hits `insufficient_quota` immediately; every other
call would succeed. -/
def respQ : Nat → Nat → Resp := fun id _ => if id = 0 then Resp.ok else Resp.quota

example :
    runEssaysE respQ insOkT [[0, 1], [2]]
      = ([EvE.disp 0 Resp.ok, EvE.persist 0, EvE.disp 1 Resp.quota], true) := by decide

example :
    runEssaysE respC6 insOkT [[7]]
      = ([EvE.disp 7 Resp.rate, EvE.disp 7 Resp.rate, EvE.disp 7 Resp.ok,
          EvE.persist 7], false) := by decide

/-- No quota-exhausted dispatch occurs in the event list. -/
def NoQ (evs : List EvE) : Prop :=
  ∀ i : Nat, EvE.disp i Resp.quota ∉ evs

/-- Invariant tying the exit flag to the event list: a non-exited run
contains no quota dispatch, and an exited run ends in its (unique) quota
dispatch. -/
def QInvE (p : List EvE × Bool) : Prop :=
  (p.2 = true → ∃ pre i, p.1 = pre ++ [EvE.disp i Resp.quota] ∧ NoQ pre) ∧
    (p.2 = false → NoQ p.1)

theorem NoQ.nil : NoQ [] := by intro i h; cases h

theorem NoQ.cons {l : List EvE} {e : EvE} (hl : NoQ l)
    (he : ∀ i : Nat, e ≠ EvE.disp i Resp.quota) : NoQ (e :: l) := by
  intro i h
  rcases List.mem_cons.mp h with h | h
  · exact he i h.symm
  · exact hl i h

theorem NoQ.append {a b : List EvE} (ha : NoQ a) (hb : NoQ b) : NoQ (a ++ b) := by
  intro i h
  rcases List.mem_append.mp h with h | h
  · exact ha i h
  · exact hb i h

theorem QInvE.comp {p q : List EvE × Bool} (hp : QInvE p) (hq : QInvE q)
    (hp2 : p.2 = false) : QInvE (p.1 ++ q.1, q.2) := by
  constructor
  · intro h2
    rcases hq.1 h2 with ⟨pre, i, hsplit, hpre⟩
    exact ⟨p.1 ++ pre, i, by rw [hsplit, List.append_assoc],
      (hp.2 hp2).append hpre⟩
  · intro h2
    exact (hp.2 hp2).append (hq.2 h2)

theorem notQuotaDisp (id : Nat) (r : Resp) (hr : r ≠ Resp.quota) :
    ∀ i : Nat, EvE.disp id r ≠ EvE.disp i Resp.quota := by
  intro i h
  injection h with h1 h2
  exact hr h2

theorem notQuotaPersist (id : Nat) : ∀ i : Nat, EvE.persist id ≠ EvE.disp i Resp.quota := by
  intro i h
  injection h

theorem QInvE.step (id : Nat) (r : Resp) (hr : r ≠ Resp.quota)
    {p : List EvE × Bool} (hp : QInvE p) :
    QInvE (EvE.disp id r :: p.1, p.2) := by
  constructor
  · intro h2
    rcases hp.1 h2 with ⟨pre, i, hsplit, hpre⟩
    exact ⟨EvE.disp id r :: pre, i, by rw [hsplit]; rfl,
      hpre.cons (notQuotaDisp id r hr)⟩
  · intro h2
    exact (hp.2 h2).cons (notQuotaDisp id r hr)

theorem qinv_chunkTryE (resp : Nat → Nat → Resp) (insOk : Nat → Nat → Bool)
    (id : Nat) : ∀ left r, QInvE (chunkTryE resp insOk id left r) := by
  intro left
  induction left with
  | zero =>
    intro r
    exact ⟨(fun h => nomatch h), fun _ => NoQ.nil⟩
  | succ left ih =>
    intro r
    simp only [chunkTryE]
    cases hr : resp id r with
    | ok =>
      dsimp only
      by_cases hins : insOk id r
      · rw [if_pos hins]
        refine ⟨(fun h => nomatch h), fun _ => ?_⟩
        exact (NoQ.nil.cons (notQuotaPersist id)).cons
          (notQuotaDisp id Resp.ok (fun h => nomatch h))
      · rw [if_neg hins]
        by_cases hl : left = 0
        · rw [if_pos hl]
          exact ⟨(fun h => nomatch h),
            fun _ => NoQ.nil.cons (notQuotaDisp id Resp.ok (fun h => nomatch h))⟩
        · rw [if_neg hl]
          exact QInvE.step id Resp.ok (fun h => nomatch h) (ih (r + 1))
    | rate =>
      dsimp only
      exact QInvE.step id Resp.rate (fun h => nomatch h) (ih (r + 1))
    | quota =>
      dsimp only
      exact ⟨fun _ => ⟨[], id, rfl, NoQ.nil⟩, fun h => nomatch h⟩
    | other =>
      dsimp only
      by_cases hl : left = 0
      · rw [if_pos hl]
        exact ⟨(fun h => nomatch h),
          fun _ => NoQ.nil.cons (notQuotaDisp id Resp.other (fun h => nomatch h))⟩
      · rw [if_neg hl]
        exact QInvE.step id Resp.other (fun h => nomatch h) (ih (r + 1))

theorem qinv_runChunksE (resp : Nat → Nat → Resp) (insOk : Nat → Nat → Bool) :
    ∀ ids, QInvE (runChunksE resp insOk ids) := by
  intro ids
  induction ids with
  | nil => exact ⟨(fun h => nomatch h), fun _ => NoQ.nil⟩
  | cons id rest ih =>
    simp only [runChunksE]
    have hp := qinv_chunkTryE resp insOk id 8 0
    by_cases h2 : (chunkRetryE resp insOk id).2
    · rw [if_pos h2]
      exact hp
    · rw [if_neg h2]
      exact hp.comp ih (Bool.eq_false_iff.mpr h2)

theorem qinv_runEssaysE (resp : Nat → Nat → Resp) (insOk : Nat → Nat → Bool) :
    ∀ essays, QInvE (runEssaysE resp insOk essays) := by
  intro essays
  induction essays with
  | nil => exact ⟨(fun h => nomatch h), fun _ => NoQ.nil⟩
  | cons es rest ih =>
    simp only [runEssaysE]
    have hp := qinv_runChunksE resp insOk es
    by_cases h2 : (runChunksE resp insOk es).2
    · rw [if_pos h2]
      exact hp
    · rw [if_neg h2]
      exact hp.comp ih (Bool.eq_false_iff.mpr h2)

theorem mem_dropLast_append_cons {α : Type} (pre : List α) (y : α)
    (post : List α) (h : post ≠ []) : y ∈ (pre ++ y :: post).dropLast := by
  induction pre with
  | nil =>
    cases post with
    | nil => exact absurd rfl h
    | cons p ps =>
      rw [List.nil_append, List.dropLast_cons₂]
      exact List.mem_cons_self y _
  | cons a pre ih =>
    rw [List.cons_append]
    have hne : pre ++ y :: post ≠ [] := by
      intro hq
      exact List.cons_ne_nil y post (List.append_eq_nil.mp hq).2
    cases hpre : pre ++ y :: post with
    | nil => exact absurd hpre hne
    | cons b bs =>
      rw [List.dropLast_cons₂]
      rw [← hpre]
      exact List.mem_cons_of_mem a ih

/-- C5 amended.  In the embed.ts per-chunk pipeline, a quota-exhausted
response halts the run immediately: nothing at all — no embedding
dispatch and no persisted record — follows a quota dispatch in the run's
event sequence (the code calls `process.exit(1)` on
`insufficient_quota`).  The original claim extended this to every
embedding pipeline of the repository; the batch pipeline of
src/unnamed/part_006 violates it (see `C5_counterexample`), because its
`processBatch` catch-all retries quota errors like any other failure and
its caller continues with later batches. -/
theorem C5_amended (resp : Nat → Nat → Resp) (insOk : Nat → Nat → Bool)
    (essays : List (List Nat)) (pre : List EvE) (i : Nat) (post : List EvE)
    (h : (runEssaysE resp insOk essays).1 = pre ++ EvE.disp i Resp.quota :: post) :
    post = [] := by
  have hq := qinv_runEssaysE resp insOk essays
  cases h2 : (runEssaysE resp insOk essays).2 with
  | false =>
    exfalso
    refine hq.2 h2 i ?_
    rw [h]
    exact List.mem_append.mpr (Or.inr (List.mem_cons_self _ _))
  | true =>
    rcases hq.1 h2 with ⟨pre0, i0, hsplit, hpre0⟩
    by_contra hne
    refine hpre0 i ?_
    have hd : (pre0 ++ [EvE.disp i0 Resp.quota]).dropLast
        = (pre ++ EvE.disp i Resp.quota :: post).dropLast := by
      rw [← hsplit, ← h]
    rw [List.dropLast_concat] at hd
    rw [hd]
    exact mem_dropLast_append_cons pre _ post hne

/-- Witness for C5 amended: chunk 0 succeeds, chunk 1 hits quota; the run
stops exactly at the quota dispatch. -/
theorem C5_amended_witness :
    (runEssaysE respQ insOkT [[0, 1], [2]]).1
        = [EvE.disp 0 Resp.ok, EvE.persist 0] ++ EvE.disp 1 Resp.quota :: [] ∧
      ([] : List EvE) = [] :=
  ⟨by decide, C5_amended respQ insOkT [[0, 1], [2]]
    [EvE.disp 0 Resp.ok, EvE.persist 0] 1 [] (by decide)⟩

theorem chunkTryE_events_own (resp : Nat → Nat → Resp) (insOk : Nat → Nat → Bool)
    (id : Nat) : ∀ left r, ∀ e ∈ (chunkTryE resp insOk id left r).1,
      (∃ rr, e = EvE.disp id rr) ∨ e = EvE.persist id := by
  intro left
  induction left with
  | zero => intro r e he; cases he
  | succ left ih =>
    intro r e he
    simp only [chunkTryE] at he
    cases hr : resp id r with
    | ok =>
      rw [hr] at he
      dsimp only at he
      by_cases hins : insOk id r
      · rw [if_pos hins] at he
        rcases List.mem_cons.mp he with rfl | he
        · exact Or.inl ⟨Resp.ok, rfl⟩
        · rcases List.mem_singleton.mp he with rfl
          exact Or.inr rfl
      · rw [if_neg hins] at he
        by_cases hl : left = 0
        · rw [if_pos hl] at he
          rcases List.mem_singleton.mp he with rfl
          exact Or.inl ⟨Resp.ok, rfl⟩
        · rw [if_neg hl] at he
          rcases List.mem_cons.mp he with rfl | he
          · exact Or.inl ⟨Resp.ok, rfl⟩
          · exact ih (r + 1) e he
    | rate =>
      rw [hr] at he
      dsimp only at he
      rcases List.mem_cons.mp he with rfl | he
      · exact Or.inl ⟨Resp.rate, rfl⟩
      · exact ih (r + 1) e he
    | quota =>
      rw [hr] at he
      dsimp only at he
      rcases List.mem_singleton.mp he with rfl
      exact Or.inl ⟨Resp.quota, rfl⟩
    | other =>
      rw [hr] at he
      dsimp only at he
      by_cases hl : left = 0
      · rw [if_pos hl] at he
        rcases List.mem_singleton.mp he with rfl
        exact Or.inl ⟨Resp.other, rfl⟩
      · rw [if_neg hl] at he
        rcases List.mem_cons.mp he with rfl | he
        · exact Or.inl ⟨Resp.other, rfl⟩
        · exact ih (r + 1) e he

theorem count_chunkTryE_ne (resp : Nat → Nat → Resp) (insOk : Nat → Nat → Bool)
    (id id' : Nat) (hne : id' ≠ id) (left r : Nat) :
    List.count (EvE.persist id') (chunkTryE resp insOk id left r).1 = 0 := by
  refine List.count_eq_zero.mpr (fun hmem => ?_)
  rcases chunkTryE_events_own resp insOk id left r _ hmem with ⟨rr, h⟩ | h
  · cases h
  · injection h with h1
    exact hne h1

theorem chunkTryE_not_exited (resp : Nat → Nat → Resp) (insOk : Nat → Nat → Bool)
    (id : Nat) (hnq : ∀ i, resp id i ≠ Resp.quota) :
    ∀ left r, (chunkTryE resp insOk id left r).2 = false := by
  intro left
  induction left with
  | zero => intro r; rfl
  | succ left ih =>
    intro r
    simp only [chunkTryE]
    cases hr : resp id r with
    | ok =>
      dsimp only
      by_cases hins : insOk id r
      · rw [if_pos hins]
      · rw [if_neg hins]
        by_cases hl : left = 0
        · rw [if_pos hl]
        · rw [if_neg hl]
          exact ih (r + 1)
    | rate => exact ih (r + 1)
    | quota => exact absurd hr (hnq r)
    | other =>
      dsimp only
      by_cases hl : left = 0
      · rw [if_pos hl]
      · rw [if_neg hl]
        exact ih (r + 1)

theorem count_chunkTryE_self (resp : Nat → Nat → Resp) (insOk : Nat → Nat → Bool)
    (id k : Nat) (hk : k < 8) (hok : resp id k = Resp.ok) (hins : insOk id k = true)
    (hnq : ∀ i, resp id i ≠ Resp.quota) :
    ∀ left r, left + r = 8 → r ≤ k → (∀ i, r ≤ i → i < k → resp id i ≠ Resp.ok) →
      List.count (EvE.persist id) (chunkTryE resp insOk id left r).1 = 1 := by
  intro left
  induction left with
  | zero =>
    intro r h8 hrk _
    omega
  | succ left ih =>
    intro r h8 hrk hfail
    simp only [chunkTryE]
    by_cases hrk' : r = k
    · subst hrk'
      rw [hok]
      dsimp only
      rw [if_pos hins]
      simp
    · have hrlt : r < k := Nat.lt_of_le_of_ne hrk hrk'
      have hnotok : resp id r ≠ Resp.ok := hfail r (Nat.le_refl r) hrlt
      have hlne : left ≠ 0 := by omega
      have hnext : ∀ i, r + 1 ≤ i → i < k → resp id i ≠ Resp.ok :=
        fun i h1 h2 => hfail i (by omega) h2
      cases hr : resp id r with
      | ok => exact absurd hr hnotok
      | rate =>
        dsimp only
        rw [List.count_cons_of_ne (by intro h; cases h)]
        exact ih (r + 1) (by omega) (by omega) hnext
      | quota => exact absurd hr (hnq r)
      | other =>
        dsimp only
        rw [if_neg hlne]
        rw [List.count_cons_of_ne (by intro h; cases h)]
        exact ih (r + 1) (by omega) (by omega) hnext

theorem runChunksE_not_exited (resp : Nat → Nat → Resp) (insOk : Nat → Nat → Bool)
    (hnq : ∀ id' i, resp id' i ≠ Resp.quota) :
    ∀ ids, (runChunksE resp insOk ids).2 = false := by
  intro ids
  induction ids with
  | nil => rfl
  | cons id rest ih =>
    simp only [runChunksE]
    rw [if_neg (by rw [chunkRetryE, chunkTryE_not_exited resp insOk id (hnq id)]; exact
      Bool.false_ne_true)]
    exact ih

theorem count_runChunksE_notMem (resp : Nat → Nat → Resp) (insOk : Nat → Nat → Bool)
    (id : Nat) : ∀ ids, id ∉ ids →
      List.count (EvE.persist id) (runChunksE resp insOk ids).1 = 0 := by
  intro ids
  induction ids with
  | nil => intro _; rfl
  | cons id0 rest ih =>
    intro hmem
    have h0 : id ≠ id0 := fun h => hmem (h ▸ List.mem_cons_self id0 rest)
    have hrest : id ∉ rest := fun h => hmem (List.mem_cons_of_mem id0 h)
    simp only [runChunksE]
    unfold chunkRetryE
    by_cases h2 : (chunkTryE resp insOk id0 8 0).2
    · rw [if_pos h2]
      exact count_chunkTryE_ne resp insOk id0 id h0 8 0
    · rw [if_neg h2]
      dsimp only
      rw [List.count_append, count_chunkTryE_ne resp insOk id0 id h0 8 0, ih hrest]

theorem count_runChunksE_mem (resp : Nat → Nat → Resp) (insOk : Nat → Nat → Bool)
    (id k : Nat) (hk : k < 8) (hok : resp id k = Resp.ok) (hins : insOk id k = true)
    (hfail : ∀ i, i < k → resp id i ≠ Resp.ok)
    (hnq : ∀ id' i, resp id' i ≠ Resp.quota) :
    ∀ ids, id ∈ ids → ids.Nodup →
      List.count (EvE.persist id) (runChunksE resp insOk ids).1 = 1 := by
  intro ids
  induction ids with
  | nil => intro h _; cases h
  | cons id0 rest ih =>
    intro hmem hnd
    simp only [runChunksE]
    rw [if_neg (by rw [chunkRetryE, chunkTryE_not_exited resp insOk id0 (hnq id0)]; exact
      Bool.false_ne_true)]
    dsimp only
    rw [List.count_append]
    rcases List.mem_cons.mp hmem with rfl | hmem'
    · rw [chunkRetryE,
        count_chunkTryE_self resp insOk id k hk hok hins (hnq id) 8 0 rfl (Nat.zero_le k)
          (fun i _ h2 => hfail i h2),
        count_runChunksE_notMem resp insOk id rest (List.nodup_cons.mp hnd).1]
    · have h0 : id ≠ id0 := by
        intro h
        exact (List.nodup_cons.mp hnd).1 (h ▸ hmem')
      rw [chunkRetryE, count_chunkTryE_ne resp insOk id0 id h0 8 0,
        ih hmem' (List.nodup_cons.mp hnd).2]

theorem count_runEssaysE_notMem (resp : Nat → Nat → Resp) (insOk : Nat → Nat → Bool)
    (id : Nat) : ∀ essays, id ∉ essays.flatten →
      List.count (EvE.persist id) (runEssaysE resp insOk essays).1 = 0 := by
  intro essays
  induction essays with
  | nil => intro _; rfl
  | cons es rest ih =>
    intro hmem
    rw [List.flatten_cons] at hmem
    have h1 : id ∉ es := fun h => hmem (List.mem_append.mpr (Or.inl h))
    have h2 : id ∉ rest.flatten := fun h => hmem (List.mem_append.mpr (Or.inr h))
    simp only [runEssaysE]
    by_cases hx : (runChunksE resp insOk es).2
    · rw [if_pos hx]
      exact count_runChunksE_notMem resp insOk id es h1
    · rw [if_neg hx]
      dsimp only
      rw [List.count_append, count_runChunksE_notMem resp insOk id es h1, ih h2]

/-- C6 amended.  In the embed.ts per-chunk pipeline, a chunk whose
embedding call fails transiently (never with `insufficient_quota`
anywhere in the run, which would abort it) and succeeds at attempt
`k < 8` with a successful insert is persisted exactly once — exactly one
persist event for that chunk appears in the whole run's event sequence,
so no duplicate upserts occur.  The original claim extended this to the
batch pipeline of src/unnamed/part_006, where it fails: a failure after
some of a batch's records were already inserted re-runs the whole batch
and re-inserts them (see `C6_counterexample`). -/
theorem C6_amended (resp : Nat → Nat → Resp) (insOk : Nat → Nat → Bool)
    (essays : List (List Nat)) (id k : Nat)
    (hnq : ∀ id' i, resp id' i ≠ Resp.quota)
    (hk : k < 8)
    (hfail : ∀ i, i < k → resp id i ≠ Resp.ok)
    (hok : resp id k = Resp.ok)
    (hins : insOk id k = true)
    (hnd : essays.flatten.Nodup)
    (hmem : id ∈ essays.flatten) :
    List.count (EvE.persist id) (runEssaysE resp insOk essays).1 = 1 := by
  induction essays with
  | nil => cases hmem
  | cons es rest ih =>
    rw [List.flatten_cons] at hmem hnd
    rcases List.nodup_append.mp hnd with ⟨hnd1, hnd2, hdisj⟩
    simp only [runEssaysE]
    rw [if_neg (by rw [runChunksE_not_exited resp insOk hnq es]; exact Bool.false_ne_true)]
    dsimp only
    rw [List.count_append]
    rcases List.mem_append.mp hmem with hmem' | hmem'
    · rw [count_runChunksE_mem resp insOk id k hk hok hins hfail hnq es hmem' hnd1,
        count_runEssaysE_notMem resp insOk id rest (fun h => hdisj hmem' h)]
    · have h1 : id ∉ es := fun h => hdisj h hmem'
      rw [count_runChunksE_notMem resp insOk id es h1, ih hnd2 hmem']

/-- Witness for C6 amended: chunk 7 (in an essay after chunk 5) is
rate-limited twice, succeeds at attempt 2, and is persisted exactly once. -/
theorem C6_amended_witness :
    List.count (EvE.persist 7) (runEssaysE respC6 insOkT [[5, 7]]).1 = 1 :=
  C6_amended respC6 insOkT [[5, 7]] 7 2
    (by intro a b; unfold respC6; split <;> decide)
    (by decide)
    (by intro i hi; unfold respC6; rw [if_pos hi]; decide)
    (by decide) (by decide) (by decide) (by decide)

/-- The effect of an embed.ts run on the persistent store (the `pg`
table), with rows identified by chunk id: the only store operation
`generateEmbeddings` in src/scripts/embed.ts performs is `insert` — there
is no delete/clear anywhere in that script — so every event either
appends a row or leaves the store unchanged. -/
def applyE (evs : List EvE) (store : List Nat) : List Nat :=
  evs.foldl
    (fun st e =>
      match e with
      | EvE.persist id => st ++ [id]
      | EvE.disp _ _ => st)
    store

/-- C8 counterexample.  The embed.ts pipeline (cited by the claim at
lines 82-97) performs no author-scoped delete at all: starting from a
store holding a stale record (row 99), a successful run appends its new
records and the stale record survives, contradicting the claim that all
existing records are deleted exactly once before any insert. -/
theorem C8_counterexample :
    applyE (runEssaysE respOkE insOkT [[0]]).1 [99] = [99, 0] ∧
      99 ∈ applyE (runEssaysE respOkE insOkT [[0]]).1 [99] := by decide

/-
Model of the batch embedding pipeline `generateEmbeddings` /
`processBatch` (src/unnamed/part_006 lines 67-208, the variant with
`BATCH_SIZE = 10` and `SUPABASE_CHUNK_SIZE = 5`).  The embedding oracle
`resp chunkId attempt` gives the outcome of each chunk's call during a
given batch attempt; the insert oracle `insOk attempt groupIdx` gives the
outcome of each 5-row bulk insert.  Events record the author-scoped
delete, the dispatched embedding calls, and the inserted rows.
-/

/-- Events of the batch pipeline: the author-scoped delete issued at the
start of a run, an embedding dispatch, and an inserted row (the insert
data carries the `author` column). -/
inductive EvB
  | clear (author : Str)
  | disp (id : Nat) (r : Resp)
  | persist (author : Str) (id : Nat)
deriving DecidableEq

/-- Slices of 5 (`SUPABASE_CHUNK_SIZE`, part_006 line 112). -/
def groupsOf5 : List Nat → List (List Nat)
  | [] => []
  | a :: b :: c :: d :: e :: rest => [a, b, c, d, e] :: groupsOf5 rest
  | l => [l]

/-- Slices of 10 (`BATCH_SIZE`, part_006 line 170). -/
def groupsOf10 : List Nat → List (List Nat)
  | [] => []
  | a :: b :: c :: d :: e :: f :: g :: h :: i :: j :: rest =>
    [a, b, c, d, e, f, g, h, i, j] :: groupsOf10 rest
  | l => [l]

/-- The dispatches of one batch attempt: `Promise.all` fires the
rate-limited embedding call for every chunk of the batch. -/
def dispEvsB (resp : Nat → Nat → Resp) (batch : List Nat) (a : Nat) : List EvB :=
  batch.map (fun id => EvB.disp id (resp id a))

/-- The bulk-insert loop of `processBatch` (part_006 lines 111-124):
5-row groups inserted in order; the first failing group throws, leaving
the earlier groups' rows persisted. -/
def insertLoop (author : Str) (insOk : Nat → Nat → Bool) (a : Nat) :
    Nat → List (List Nat) → List EvB × Bool
  | _, [] => ([], true)
  | g, grp :: rest =>
    if insOk a g then
      let p := insertLoop author insOk a (g + 1) rest
      (grp.map (EvB.persist author) ++ p.1, p.2)
    else ([], false)

/-- One attempt of `processBatch`: embed every chunk (all dispatches
happen); if any embedding fails the catch is reached before any insert;
otherwise run the bulk-insert loop. -/
def batchAttempt (resp : Nat → Nat → Resp) (insOk : Nat → Nat → Bool)
    (author : Str) (batch : List Nat) (a : Nat) : List EvB × Bool :=
  if batch.all (fun id => resp id a == Resp.ok) then
    let p := insertLoop author insOk a 0 (groupsOf5 batch)
    (dispEvsB resp batch a ++ p.1, p.2)
  else (dispEvsB resp batch a, false)

/-- The retry recursion of `processBatch` (part_006 lines 128-138):
on any error — the quota class included, there is no quota check in this
pipeline — the whole batch is retried until `retryCount >= maxRetries`
(ceiling 3, so at most 4 attempts); `left` is the number of attempts the
ceiling still admits and `a` the current `retryCount`. -/
def batchTry (resp : Nat → Nat → Resp) (insOk : Nat → Nat → Bool)
    (author : Str) (batch : List Nat) : Nat → Nat → List EvB × Bool
  | 0, _ => ([], false)
  | left + 1, a =>
    let p := batchAttempt resp insOk author batch a
    if p.2 then (p.1, true)
    else if left = 0 then (p.1, false)
    else
      let q := batchTry resp insOk author batch left (a + 1)
      (p.1 ++ q.1, q.2)

/-- `processBatch` from `retryCount = 0` with `maxRetries = 3`. -/
def processBatchM (resp : Nat → Nat → Resp) (insOk : Nat → Nat → Bool)
    (author : Str) (batch : List Nat) : List EvB × Bool :=
  batchTry resp insOk author batch 4 0

/-- The batch loop of part_006's `generateEmbeddings` (lines 184-204): a
failed batch is logged and skipped (`continue`), never aborting the run. -/
def runBatchesB (resp : Nat → Nat → Resp) (insOk : Nat → Nat → Bool)
    (author : Str) : List (List Nat) → List EvB
  | [] => []
  | b :: rest =>
    (processBatchM resp insOk author b).1 ++ runBatchesB resp insOk author rest

/-- The essay loop of part_006's `generateEmbeddings` (lines 179-205). -/
def runEssaysB (resp : Nat → Nat → Resp) (insOk : Nat → Nat → Bool)
    (author : Str) : List (List Nat) → List EvB
  | [] => []
  | es :: rest =>
    runBatchesB resp insOk author (groupsOf10 es) ++ runEssaysB resp insOk author rest

/-- `generateEmbeddings` (part_006 lines 141-208): delete the author's
existing rows first, then process every essay. -/
def runPart6 (resp : Nat → Nat → Resp) (insOk : Nat → Nat → Bool)
    (author : Str) (essays : List (List Nat)) : List EvB :=
  EvB.clear author :: runEssaysB resp insOk author essays

/-- The run's author string in the concrete scenarios. -/
def auth : Str := ['t', 'f']

/-- Oracle: chunk 0's first call is quota-exhausted; everything else
succeeds. -/
def respC5 : Nat → Nat → Resp :=
  fun id a => if a = 0 ∧ id = 0 then Resp.quota else Resp.ok

/-- Oracle: every embedding call succeeds (batch pipeline scenarios). -/
def respOkB : Nat → Nat → Resp := fun _ _ => Resp.ok

/-- Oracle: on the first attempt the second 5-row insert fails;
every other insert succeeds. -/
def insOkC6 : Nat → Nat → Bool := fun a g => decide (¬ (a = 0 ∧ g = 1))

/-- C5 counterexample.  In the batch pipeline of src/unnamed/part_006 a
quota-exhausted response does not stop dispatching: after chunk 0's quota
response, the run dispatches four more embedding calls (the rejected
batch is retried wholesale) and persists two records dispatched after
that point — `processBatch`'s catch-all treats quota like any transient
error. -/
theorem C5_counterexample :
    runPart6 respC5 insOkT auth [[0, 1]]
        = [EvB.clear auth, EvB.disp 0 Resp.quota]
          ++ [EvB.disp 1 Resp.ok, EvB.disp 0 Resp.ok, EvB.disp 1 Resp.ok,
              EvB.persist auth 0, EvB.persist auth 1] ∧
      ([EvB.disp 1 Resp.ok, EvB.disp 0 Resp.ok, EvB.disp 1 Resp.ok,
        EvB.persist auth 0, EvB.persist auth 1] : List EvB) ≠ [] := by decide

/-- C6 counterexample.  A 6-chunk batch: all embeddings succeed, the
first 5-row insert succeeds, the second fails transiently, and the batch
retry succeeds — chunk 0's record is persisted twice (the retry re-runs
the whole batch, re-inserting the rows already inserted before the
failure), refuting "exactly one persisted record, no duplicate upserts". -/
theorem C6_counterexample :
    List.count (EvB.persist auth 0)
        (runPart6 respOkB insOkC6 auth [[0, 1, 2, 3, 4, 5]]) = 2 := by decide

/-- Predicate on batch-pipeline events: not a clear, and any inserted row
carries the run's author. -/
def EvBGood (author : Str) : EvB → Prop
  | EvB.clear _ => False
  | EvB.disp _ _ => True
  | EvB.persist a _ => a = author

/-- Bool test for clear events. -/
def isClearB : EvB → Bool
  | EvB.clear _ => true
  | _ => false

/-- The store (`substack_embeddings` rows keyed by author and chunk id)
after one event: `clear a` deletes the author's rows
(`delete().eq('author', a)`), a dispatch leaves the store unchanged, an
insert appends its row. -/
def rowsApplyB (store : List (Str × Nat)) (e : EvB) : List (Str × Nat) :=
  match e with
  | EvB.clear a => store.filter (fun r => decide (r.1 ≠ a))
  | EvB.disp _ _ => store
  | EvB.persist a id => store ++ [(a, id)]

/-- The store after a run's event sequence. -/
def storeApplyB (evs : List EvB) (store : List (Str × Nat)) : List (Str × Nat) :=
  evs.foldl rowsApplyB store

/-- The rows a run inserts, in order. -/
def persistRowsB (evs : List EvB) : List (Str × Nat) :=
  evs.filterMap
    (fun e =>
      match e with
      | EvB.persist a id => some (a, id)
      | _ => none)

theorem good_insertLoop (author : Str) (insOk : Nat → Nat → Bool) (a : Nat) :
    ∀ (grps : List (List Nat)) (g : Nat),
      ∀ e ∈ (insertLoop author insOk a g grps).1, EvBGood author e := by
  intro grps
  induction grps with
  | nil => intro g e he; cases he
  | cons grp rest ih =>
    intro g e he
    simp only [insertLoop] at he
    by_cases hins : insOk a g
    · rw [if_pos hins] at he
      dsimp only at he
      rcases List.mem_append.mp he with h | h
      · rcases List.mem_map.mp h with ⟨id, _, rfl⟩
        exact rfl
      · exact ih (g + 1) e h
    · rw [if_neg hins] at he
      cases he

theorem good_batchAttempt (resp : Nat → Nat → Resp) (insOk : Nat → Nat → Bool)
    (author : Str) (batch : List Nat) (a : Nat) :
    ∀ e ∈ (batchAttempt resp insOk author batch a).1, EvBGood author e := by
  intro e he
  have hdisp : ∀ e ∈ dispEvsB resp batch a, EvBGood author e := by
    intro e' he'
    rcases List.mem_map.mp he' with ⟨id, _, rfl⟩
    exact trivial
  simp only [batchAttempt] at he
  split at he
  · dsimp only at he
    rcases List.mem_append.mp he with h | h
    · exact hdisp e h
    · exact good_insertLoop author insOk a (groupsOf5 batch) 0 e h
  · exact hdisp e he

theorem good_batchTry (resp : Nat → Nat → Resp) (insOk : Nat → Nat → Bool)
    (author : Str) (batch : List Nat) :
    ∀ (left a : Nat), ∀ e ∈ (batchTry resp insOk author batch left a).1,
      EvBGood author e := by
  intro left
  induction left with
  | zero => intro a e he; cases he
  | succ left ih =>
    intro a e he
    simp only [batchTry] at he
    split at he
    · exact good_batchAttempt resp insOk author batch a e he
    · split at he
      · exact good_batchAttempt resp insOk author batch a e he
      · dsimp only at he
        rcases List.mem_append.mp he with h | h
        · exact good_batchAttempt resp insOk author batch a e h
        · exact ih (a + 1) e h

theorem good_runBatchesB (resp : Nat → Nat → Resp) (insOk : Nat → Nat → Bool)
    (author : Str) : ∀ bs, ∀ e ∈ runBatchesB resp insOk author bs, EvBGood author e := by
  intro bs
  induction bs with
  | nil => intro e he; cases he
  | cons b rest ih =>
    intro e he
    rcases List.mem_append.mp he with h | h
    · exact good_batchTry resp insOk author b 4 0 e h
    · exact ih e h

theorem good_runEssaysB (resp : Nat → Nat → Resp) (insOk : Nat → Nat → Bool)
    (author : Str) : ∀ essays, ∀ e ∈ runEssaysB resp insOk author essays,
      EvBGood author e := by
  intro essays
  induction essays with
  | nil => intro e he; cases he
  | cons es rest ih =>
    intro e he
    rcases List.mem_append.mp he with h | h
    · exact good_runBatchesB resp insOk author (groupsOf10 es) e h
    · exact ih e h

theorem storeApplyB_of_good (author : Str) :
    ∀ (evs : List EvB), (∀ e ∈ evs, EvBGood author e) →
      ∀ S, storeApplyB evs S = S ++ persistRowsB evs := by
  intro evs
  induction evs with
  | nil => intro _ S; simp [storeApplyB, persistRowsB]
  | cons e rest ih =>
    intro hgood S
    have hrest : ∀ x ∈ rest, EvBGood author x :=
      fun x hx => hgood x (List.mem_cons_of_mem e hx)
    cases e with
    | clear a => exact absurd (hgood _ (List.mem_cons_self _ _)) (fun h => h)
    | disp id r =>
      simp only [storeApplyB, List.foldl_cons, rowsApplyB, persistRowsB,
        List.filterMap_cons]
      exact ih hrest S
    | persist a id =>
      simp only [storeApplyB, List.foldl_cons, rowsApplyB, persistRowsB,
        List.filterMap_cons]
      have h1 := ih hrest (S ++ [(a, id)])
      simp only [storeApplyB, persistRowsB] at h1
      rw [h1]
      simp [List.append_assoc]

theorem persistRowsB_author (author : Str) (evs : List EvB)
    (hgood : ∀ e ∈ evs, EvBGood author e) :
    ∀ r ∈ persistRowsB evs, r.1 = author := by
  intro r hr
  rcases List.mem_filterMap.mp hr with ⟨e, he, hsome⟩
  cases e with
  | clear a => cases hsome
  | disp id rr => cases hsome
  | persist a id =>
    cases hsome
    exact hgood _ he

/-- C8 amended.  In the substack batch pipeline (src/unnamed/part_006)
the replace semantics hold: every run's very first event is the single
author-scoped delete (so it precedes every insert), and the resulting
store is the prior store minus the author's rows plus only rows carrying
this author — every other author's rows are untouched.  The original
claim extended this to every embedding run; the embed.ts pipeline
performs no delete at all and stale records survive
(see `C8_counterexample`). -/
theorem C8_amended (resp : Nat → Nat → Resp) (insOk : Nat → Nat → Bool)
    (author : Str) (essays : List (List Nat)) (store : List (Str × Nat)) :
    (runPart6 resp insOk author essays).head? = some (EvB.clear author)
    ∧ List.countP isClearB (runPart6 resp insOk author essays) = 1
    ∧ storeApplyB (runPart6 resp insOk author essays) store
        = store.filter (fun r => decide (r.1 ≠ author))
          ++ persistRowsB (runEssaysB resp insOk author essays)
    ∧ ∀ r ∈ persistRowsB (runEssaysB resp insOk author essays), r.1 = author := by
  have hgood := good_runEssaysB resp insOk author essays
  refine ⟨rfl, ?_, ?_, persistRowsB_author author _ hgood⟩
  · rw [runPart6, List.countP_cons]
    have h0 : List.countP isClearB (runEssaysB resp insOk author essays) = 0 := by
      rw [List.countP_eq_zero]
      intro e he
      cases e with
      | clear a => exact absurd (hgood _ he) (fun h => h)
      | disp id r => exact Bool.false_ne_true
      | persist a id => exact Bool.false_ne_true
    rw [h0]
    rfl
  · rw [runPart6]
    show storeApplyB (runEssaysB resp insOk author essays) (rowsApplyB store (EvB.clear author))
      = _
    rw [storeApplyB_of_good author _ hgood]
    rfl

/-
URL discovery.  Two scrapers exist: the standalone scraper of
src/unnamed/part_001 (sitemap with catch-to-empty, feed fallback, always
completes) and the API-backed scraper of src/scripts/substack_scraper.ts
(sitemap only, errors propagate, no fallback).  Network fetching and XML
parsing are modelled by oracles: `none` is a fetch/parse failure, `some
urls` the parsed URL list; the per-post oracle maps a URL to `some
content` (a saved post) or `none` (paywalled or failed, skipped).
-/

/-- JS `haystack.includes(needle)`: substring containment. -/
def hasSubstr : Str → Str → Bool
  | [], needle => needle.isEmpty
  | c :: rest, needle => needle.isPrefixOf (c :: rest) || hasSubstr rest needle

/-- `KEYWORDS_TO_FILTER = ['about', 'archive', 'podcast']`
(part_001 line 11, scripts/substack_scraper.ts line 85). -/
def KEYWORDS_TO_FILTER : List Str :=
  [['a', 'b', 'o', 'u', 't'],
   ['a', 'r', 'c', 'h', 'i', 'v', 'e'],
   ['p', 'o', 'd', 'c', 'a', 's', 't']]

/-- `filterUrls` (part_001 lines 114-118): keep URLs containing none of
the denylist keywords. -/
def filterUrls (urls : List Str) : List Str :=
  urls.filter (fun url => ! KEYWORDS_TO_FILTER.any (fun kw => hasSubstr url kw))

/-- `fetchUrlsFromSitemap` of part_001 (lines 76-91): any fetch/parse
error is caught and yields `[]`. -/
def fetchUrlsFromSitemapP1 (sitemap : Option (List Str)) : List Str :=
  match sitemap with
  | some urls => filterUrls urls
  | none => []

/-- `fetchUrlsFromFeed` of part_001 (lines 93-112): same catch-to-empty
behaviour for the syndication feed. -/
def fetchUrlsFromFeedP1 (feed : Option (List Str)) : List Str :=
  match feed with
  | some urls => filterUrls urls
  | none => []

/-- Result summary of a part_001 `scrapePosts` run: the URL list it
iterated, how many times the feed fallback was invoked, and how many
posts were saved. -/
structure P1Run where
  urls : List Str
  feedCalls : Nat
  saved : Nat
deriving DecidableEq

/-- `scrapePosts` of part_001 (lines 207-230): sitemap first; if it
yields zero URLs, fall back to the feed (once); optionally truncate; each
URL's post is fetched and saved unless extraction returned null.  The
function always returns normally. -/
def scrapePostsP1 (sitemap feed : Option (List Str)) (post : Str → Option Str)
    (numPostsToScrape : Nat) : P1Run :=
  let urls0 := fetchUrlsFromSitemapP1 sitemap
  let urlsFc := if urls0.length = 0 then (fetchUrlsFromFeedP1 feed, 1) else (urls0, 0)
  let urls1 := if 0 < numPostsToScrape then urlsFc.1.take numPostsToScrape else urlsFc.1
  { urls := urls1, feedCalls := urlsFc.2, saved := (urls1.filterMap post).length }

/-- `fetchUrlsFromSitemap` of src/scripts/substack_scraper.ts
(lines 63-82): the catch re-throws (`throw error`), so a fetch/parse
failure propagates to the caller. -/
def fetchUrlsFromSitemapS (sitemap : Option (List Str)) : Except Unit (List Str) :=
  match sitemap with
  | some urls => Except.ok (filterUrls urls)
  | none => Except.error ()

/-- `scrape` of src/scripts/substack_scraper.ts (lines 191-231, with
development mode off): discovery has no fallback and its error aborts the
whole run.  Returns the number of scraped essays. -/
def scrapeS (sitemap : Option (List Str)) (post : Str → Option Str) :
    Except Unit Nat :=
  match fetchUrlsFromSitemapS sitemap with
  | Except.error e => Except.error e
  | Except.ok urls => Except.ok (urls.filterMap post).length

/-- Extraction oracle returning no post for any URL. -/
def noPost : Str → Option Str := fun _ => none

/-- C7 counterexample.  In the API-backed scraper
(src/scripts/substack_scraper.ts, one of the claim's cited sources) a
failing sitemap is not followed by any feed fallback — that scraper has
no feed path at all — and the run aborts with the propagated error
instead of completing normally with zero documents. -/
theorem C7_counterexample : scrapeS none noPost = Except.error () := rfl

/-- C7 amended.  In the standalone scraper (src/unnamed/part_001): if the
sitemap strategy fails or yields zero URLs (after filtering), the feed
fallback is invoked exactly once; and if the fallback also yields zero
URLs, the run still completes normally with an empty URL list and zero
saved documents.  In the API-backed scraper
(src/scripts/substack_scraper.ts) the claim fails: there is no fallback
and a sitemap failure aborts the run (see `C7_counterexample`). -/
theorem C7_amended (sitemap feed : Option (List Str)) (post : Str → Option Str)
    (n : Nat) (h : (fetchUrlsFromSitemapP1 sitemap).length = 0) :
    (scrapePostsP1 sitemap feed post n).feedCalls = 1
    ∧ ((fetchUrlsFromFeedP1 feed).length = 0 →
        (scrapePostsP1 sitemap feed post n).urls = []
        ∧ (scrapePostsP1 sitemap feed post n).saved = 0) := by
  simp only [scrapePostsP1, if_pos h]
  constructor
  · trivial
  · intro hf
    rw [List.length_eq_zero] at hf
    rw [hf]
    constructor
    · show (if 0 < n then List.take n [] else []) = []
      split <;> simp
    · show (List.filterMap post (if 0 < n then List.take n [] else [])).length = 0
      split <;> simp

/-- Witness for C7 amended: both strategies fail outright; the fallback
is consulted once and the run completes with zero posts. -/
theorem C7_amended_witness :
    (scrapePostsP1 none none noPost 0).feedCalls = 1
    ∧ ((fetchUrlsFromFeedP1 none).length = 0 →
        (scrapePostsP1 none none noPost 0).urls = []
        ∧ (scrapePostsP1 none none noPost 0).saved = 0) :=
  C7_amended none none noPost 0 (by decide)

end SubstackGPT
